import Mathlib

/-!
Verification of the SHL Assessment Recommendation System against its
natural-language specification.

The Python sources are shallowly embedded:

* `DataProcessor.py` — test-type normalization (`normalize_test_type`);
* `vector_store.py` — `filter_by_duration`, `_embed_texts`,
  `create_vector_db`, `search_assessments`;
* `gemini_integration.py` — `_call_with_retry`, `rank_assessments`;
* `recommendation_system.py` — `get_recommendations` (deduplication,
  ranking, row formatting).

Modelling conventions:

* Python numbers (`int`/`float`) are modelled by `ℚ`; `float(...)` parses
  exactly (no binary rounding), which is irrelevant for the small decimal
  values the claims use.
* Python strings are Lean `String`s; character-level loops work on
  `List Char`.  `str.isdigit`, `str.strip`, `str.lower` and `str.split()`
  are modelled over the ASCII repertoire the pipeline's data uses
  (Python's versions additionally accept some non-ASCII code points).
* Network calls (Gemini generation, embedding, Chroma retrieval) are
  inputs of the embedded functions: a call either returns a reply or
  raises, which `Except Unit` captures; the document list a retrieval
  returns is passed in explicitly.
* Exceptions are modelled by `Except`/`Option` results; a `try/except`
  around pure code whose body cannot raise in the model is translated as
  the body alone.
-/

/-- Whitespace test used by Python's `str.strip` / `str.split()`
(ASCII repertoire: space, tab, newline, carriage return). -/
def isPySpace (c : Char) : Bool :=
  c.isWhitespace

/-- `list.dropWhile isPySpace` from the left — the left half of
Python's `str.strip()`. -/
def trimLeftCh (l : List Char) : List Char :=
  l.dropWhile isPySpace

/-- Right-trim: drop trailing whitespace — the right half of
Python's `str.strip()`. -/
def trimRightCh (l : List Char) : List Char :=
  (l.reverse.dropWhile isPySpace).reverse

/-- Python `str.strip()` on a character list. -/
def pyStrip (l : List Char) : List Char :=
  trimRightCh (trimLeftCh l)

/-- Python `str.strip()` on a `String`. -/
def pyStripStr (s : String) : String :=
  (pyStrip s.data).asString

/-- Python `text.split(",")`: split at every comma; `""` splits to
`[""]`, and empty pieces are kept. -/
def splitComma : List Char → List (List Char)
  | [] => [[]]
  | c :: cs =>
    if c = ',' then
      [] :: splitComma cs
    else
      match splitComma cs with
      | [] => [[c]]
      | t :: ts => (c :: t) :: ts

/-- Pieces of a split at whitespace characters (empty pieces kept);
`pySplitWs` filters the empties away to model Python `str.split()`. -/
def splitAtWs : List Char → List (List Char)
  | [] => [[]]
  | c :: cs =>
    if isPySpace c then
      [] :: splitAtWs cs
    else
      match splitAtWs cs with
      | [] => [[c]]
      | t :: ts => (c :: t) :: ts

/-- Python `str.split()` (no argument): split on whitespace runs,
dropping empty pieces. -/
def pySplitWs (l : List Char) : List (List Char) :=
  (splitAtWs l).filter (fun t => ¬ t.isEmpty)

/-- Code-point lexicographic comparison of character lists — the order
Python's `sorted` uses on strings. -/
def charsLe : List Char → List Char → Bool
  | [], _ => true
  | _ :: _, [] => false
  | a :: as, b :: bs =>
    if a < b then true
    else if b < a then false
    else charsLe as bs

/-- The proposition form of `charsLe`, used as the sorting relation. -/
def CharsLE (a b : List Char) : Prop :=
  charsLe a b = true

instance : DecidableRel CharsLE :=
  fun a b => instDecidableEqBool (charsLe a b) true

/-- `", ".join(...)` at the character level: interleave `", "` between
the tokens. -/
def joinCS : List (List Char) → List Char
  | [] => []
  | [t] => t
  | t :: u :: ts => t ++ ',' :: ' ' :: joinCS (u :: ts)

/-- Value of a string of ASCII digits, most significant first. -/
def digitsToNat (l : List Char) : Nat :=
  l.foldl (fun n c => 10 * n + (c.toNat - '0'.toNat)) 0

/-- Python `s.replace('.', '', 1)`: remove the first `'.'`, if any. -/
def removeFirstDot : List Char → List Char
  | [] => []
  | c :: cs => if c = '.' then cs else c :: removeFirstDot cs

/-- Python `str.isdigit()` over ASCII: non-empty and all decimal digits.
(Python also accepts some Unicode digit code points that `float()`
rejects; the pipeline's metadata is ASCII.) -/
def pyIsdigit (l : List Char) : Bool :=
  ¬ l.isEmpty && l.all Char.isDigit

/-- Exact value of `float(s)` for the strings guarded by
`s.replace('.', '', 1).isdigit()`: digits with at most one `'.'`. -/
def pyFloat (l : List Char) : ℚ :=
  let intPart := l.takeWhile (fun c => c ≠ '.')
  match l.dropWhile (fun c => c ≠ '.') with
  | [] => (digitsToNat intPart : ℚ)
  | _ :: frac => (digitsToNat intPart : ℚ) + (digitsToNat frac : ℚ) / 10 ^ frac.length

/-! ## `DataProcessor.py`: test-type normalization

`AssessmentDataProcessor.process_prepackaged_data` /
`process_individual_data` both normalize the `test_type` field the same
way:

```python
test_type = assessment.get("test_type", "")
if test_type:
    if "," in test_type:
        test_types = [t.strip() for t in test_type.split(",")]
    else:
        test_types = [t.strip() for t in test_type.split()]
    test_type_normalized = ", ".join(sorted(test_types))
else:
    test_type_normalized = ""
```
-/

/-- Test-type normalization from `DataProcessor.py` (both the
prepackaged and the individual branch): split on `","` if a comma is
present, else on whitespace; strip each token; sort lexicographically;
rejoin with `", "`.  `sorted` is modelled by `insertionSort` under the
code-point order `CharsLE` (equal tokens are identical strings, so
stability is immaterial). -/
def normalize_test_type (s : String) : String :=
  if s = "" then ""
  else
    let l := s.data
    let pieces := if ',' ∈ l then splitComma l else pySplitWs l
    let toks := pieces.map pyStrip
    (joinCS (List.insertionSort CharsLE toks)).asString

/-! ## `vector_store.py`: data model -/

/-- A ChromaDB metadata value as this pipeline produces it: a string or
a number (`DataProcessor` emits only strings, numbers and `None`;
`create_vector_db` turns `None` into `""`). -/
inductive MetaVal : Type
  | str (s : String)
  | num (q : ℚ)
deriving DecidableEq, Inhabited

/-- The metadata keys the system reads.  A field is `none` when the key
is absent or its value is `None` — Python's `metadata.get(key)` returns
`None` in both cases. -/
structure Metadata : Type where
  name : Option MetaVal := none
  type : Option MetaVal := none
  test_type : Option MetaVal := none
  remote_testing : Option MetaVal := none
  adaptive : Option MetaVal := none
  url : Option MetaVal := none
  duration : Option MetaVal := none
  assessment_time : Option MetaVal := none
deriving DecidableEq, Inhabited

/-- A `langchain` `Document`: page content plus metadata. -/
structure Doc : Type where
  page_content : String
  metadata : Metadata
deriving DecidableEq, Inhabited

/-! ## `vector_store.py`: `filter_by_duration` -/

/-- The conversion step inside `filter_by_duration`'s `try` block
(applied identically to `assessment_time` and to `duration`):

```python
if isinstance(v, str) and v.replace('.', '', 1).isdigit():
    v = float(v)
```

The subsequent `float(v)` cannot raise for an ASCII-digit string, so the
`except (ValueError, TypeError)` handler is unreachable in this model
and the `try` body is translated alone. -/
def convertDurationVal (v : MetaVal) : MetaVal :=
  match v with
  | .str s => if pyIsdigit (removeFirstDot s.data) then .num (pyFloat s.data) else .str s
  | .num q => .num q

/-- `if isinstance(v, (int, float)) and v <= max_duration:
filtered_docs.append(doc)` — after the conversion step.  A value that is
still a string fails the `isinstance` test and the document is simply
not appended. -/
def keepVal (v : MetaVal) (m : ℚ) : Bool :=
  match convertDurationVal v with
  | .num q => decide (q ≤ m)
  | .str _ => false

/-- Per-document branch cascade of `filter_by_duration`: a present
`assessment_time` is consulted first; otherwise a present `duration`;
a document with neither is appended unconditionally. -/
def keepDoc (md : Metadata) (m : ℚ) : Bool :=
  match md.assessment_time with
  | some v => keepVal v m
  | none =>
    match md.duration with
    | some v => keepVal v m
    | none => true

/-- The `for doc in documents:` loop of `filter_by_duration`, appending
the kept documents in order. -/
def filterLoop (m : ℚ) : List Doc → List Doc
  | [] => []
  | d :: ds => if keepDoc d.metadata m then d :: filterLoop m ds else filterLoop m ds

/-- `AssessmentVectorStore.filter_by_duration`.  The guard
`if not max_duration: return documents` treats both `None` and `0` as
"no constraint" (Python falsiness). -/
def filter_by_duration (documents : List Doc) (max_duration : Option ℚ) : List Doc :=
  match max_duration with
  | none => documents
  | some m => if m = 0 then documents else filterLoop m documents

/-! ## `vector_store.py`: `_embed_texts` and `create_vector_db` -/

/-- The zero embedding `[0.0] * 768`. -/
def zero768 : List ℚ :=
  List.replicate 768 (0 : ℚ)

/-- Python truthiness/blankness test
`if not text or text.strip() == "":` for a string. -/
def pyBlank (t : String) : Prop :=
  t = "" ∨ pyStripStr t = ""

instance (t : String) : Decidable (pyBlank t) :=
  inferInstanceAs (Decidable (_ ∨ _))

/-- One iteration of the inner loop of `_embed_texts`: an empty or
whitespace-only text gets the zero embedding without calling the
provider; otherwise `genai.embed_content` is called, which may raise. -/
def embedOne (p : String → Except Unit (List ℚ)) (text : String) : Except Unit (List ℚ) :=
  if pyBlank text then .ok zero768 else p text

/-- The `try` body of `_embed_texts` over one batch: embed each text in
order, aborting at the first raised exception. -/
def tryBatch (p : String → Except Unit (List ℚ)) : List String → Except Unit (List (List ℚ))
  | [] => .ok []
  | t :: ts =>
    match embedOne p t with
    | .error e => .error e
    | .ok v =>
      match tryBatch p ts with
      | .error e => .error e
      | .ok vs => .ok (v :: vs)

/-- One batch of `_embed_texts`: on success the individual embeddings,
on a raised exception zero embeddings for the whole batch
(`for _ in range(len(batch)): embeddings.append([0.0] * 768)`). -/
def embedChunk (p : String → Except Unit (List ℚ)) (batch : List String) : List (List ℚ) :=
  match tryBatch p batch with
  | .ok es => es
  | .error _ => batch.map fun _ => zero768

/-- The batch loop of `_embed_texts`, with the number of remaining
texts as structural fuel: each batch consumes at least one text, so a
fuel equal to the list's length suffices, and the fuel only exists to
make the recursion structural (hence kernel-computable). -/
def embedGo (p : String → Except Unit (List ℚ)) : Nat → List String → List (List ℚ)
  | _, [] => []
  | 0, _ :: _ => []
  | n + 1, t :: ts => embedChunk p ((t :: ts).take 10) ++ embedGo p n ((t :: ts).drop 10)

/-- `AssessmentVectorStore._embed_texts`: process the texts in batches
of `batch_size = 10`, concatenating the batch results. -/
def embed_texts (p : String → Except Unit (List ℚ)) (texts : List String) : List (List ℚ) :=
  embedGo p texts.length texts

/-- Metadata as `create_vector_db` hands it to ChromaDB: all eight keys
present, values never `None`. -/
structure ChromaMeta : Type where
  name : MetaVal
  type : MetaVal
  test_type : MetaVal
  remote_testing : MetaVal
  adaptive : MetaVal
  url : MetaVal
  duration : MetaVal
  assessment_time : MetaVal
deriving DecidableEq, Inhabited

/-- Per-value metadata cleaning in `create_vector_db`: `None` becomes
`""`; strings stay strings (`str(v)` is the identity on them) and
numbers are passed through (`isinstance(v, (int, float, bool))`). -/
def convVal (v : Option MetaVal) : MetaVal :=
  match v with
  | none => .str ""
  | some v => v

/-- The metadata-cleaning loop of `create_vector_db` over the keys the
pipeline stores. -/
def convMetadata (md : Metadata) : ChromaMeta where
  name := convVal md.name
  type := convVal md.type
  test_type := convVal md.test_type
  remote_testing := convVal md.remote_testing
  adaptive := convVal md.adaptive
  url := convVal md.url
  duration := convVal md.duration
  assessment_time := convVal md.assessment_time

/-- One record handed to `collection.add`: parallel entries of the
`ids`, `documents`, `embeddings` and `metadatas` lists. -/
structure ChromaEntry : Type where
  id : String
  text : String
  embedding : List ℚ
  meta : ChromaMeta
deriving DecidableEq

/-- Zip the four parallel lists passed to `collection.add`. -/
def zipEntries : List String → List String → List (List ℚ) → List ChromaMeta → List ChromaEntry
  | i :: is, t :: ts, e :: es, m :: ms => ⟨i, t, e, m⟩ :: zipEntries is ts es ms
  | _, _, _, _ => []

/-- One `batch_size = 50` iteration of `create_vector_db`: ids
`doc_{offset+j}`, the page contents, their embeddings and the cleaned
metadata. -/
def batchEntries (p : String → Except Unit (List ℚ)) (offset : Nat) (batch : List Doc) :
    List ChromaEntry :=
  zipEntries
    ((List.range batch.length).map fun j => "doc_" ++ toString (offset + j))
    (batch.map (·.page_content))
    (embed_texts p (batch.map (·.page_content)))
    (batch.map fun d => convMetadata d.metadata)

/-- The batch loop of `create_vector_db` (the branch without
pre-computed embeddings), starting at document index `offset`, with the
number of remaining documents as structural fuel (as in `embedGo`). -/
def createGo (p : String → Except Unit (List ℚ)) : Nat → Nat → List Doc → List ChromaEntry
  | _, _, [] => []
  | 0, _, _ :: _ => []
  | n + 1, offset, d :: ds =>
    batchEntries p offset ((d :: ds).take 50) ++ createGo p n (offset + 50) ((d :: ds).drop 50)

/-- `AssessmentVectorStore.create_vector_db`, modelling the branch where
`FinalDataSource/precomputed_embeddings.json` does not exist (the other
branch only replays a file).  The result is the collection contents:
one entry per document.  `if not self.documents: return` is the empty
case. -/
def create_vector_db (p : String → Except Unit (List ℚ)) (docs : List Doc) : List ChromaEntry :=
  if docs.isEmpty then [] else createGo p docs.length 0 docs

/-! ## `vector_store.py`: `search_assessments` -/

/-- One result dictionary built by `search_assessments` from a
document. -/
structure SearchResult : Type where
  name : MetaVal
  type : MetaVal
  test_type : MetaVal
  remote_testing : MetaVal
  adaptive : MetaVal
  url : MetaVal
  duration : Option MetaVal
  assessment_time : Option MetaVal
  content : String
deriving DecidableEq, Inhabited

/-- The dictionary `search_assessments` builds per document, with the
`metadata.get(key, default)` defaults from the source. -/
def toSearchResult (d : Doc) : SearchResult where
  name := (d.metadata.name).getD (.str "Unnamed Assessment")
  type := (d.metadata.type).getD (.str "Unknown")
  test_type := (d.metadata.test_type).getD (.str "Unknown")
  remote_testing := (d.metadata.remote_testing).getD (.str "Unknown")
  adaptive := (d.metadata.adaptive).getD (.str "Unknown")
  url := (d.metadata.url).getD (.str "")
  duration := d.metadata.duration
  assessment_time := d.metadata.assessment_time
  content := d.page_content

/-- `AssessmentVectorStore.search_assessments` after retrieval: the
retrieved documents are an input (retrieval itself is a network query).
`if max_duration:` is Python truthiness, so `None` and `0` both skip
the duration filter. -/
def search_assessments (documents : List Doc) (max_duration : Option ℚ) : List SearchResult :=
  if documents.isEmpty then []
  else
    let documents :=
      match max_duration with
      | none => documents
      | some m => if m = 0 then documents else filter_by_duration documents (some m)
    documents.map toSearchResult

/-! ## Claim-side predicates for the duration filter

These restate the spec's wording ("kept iff it has no duration-related
field at all, or its numeric duration — preferring `assessment_time`
over `duration` — is ≤ the constraint") to be compared with the code's
`keepDoc`. -/

/-- Numeric value of a metadata entry, the way `filter_by_duration`
understands one: a number directly, or a string passing the
`replace('.', '', 1).isdigit()` test, parsed by `float`. -/
def parseNumVal : MetaVal → Option ℚ
  | .num q => some q
  | .str s => if pyIsdigit (removeFirstDot s.data) then some (pyFloat s.data) else none

/-- The spec's "numeric duration" of a document: taken from
`assessment_time` when that field exists, else from `duration`, else
absent. -/
def specNumericDuration (md : Metadata) : Option ℚ :=
  match md.assessment_time with
  | some v => parseNumVal v
  | none =>
    match md.duration with
    | some v => parseNumVal v
    | none => none

/-- The spec's keep condition: no duration-related field at all, or a
numeric duration that is at most the constraint. -/
def KeepSpec (md : Metadata) (m : ℚ) : Prop :=
  (md.assessment_time = none ∧ md.duration = none) ∨
    ∃ q, specNumericDuration md = some q ∧ q ≤ m

instance (md : Metadata) (m : ℚ) : Decidable (KeepSpec md m) :=
  match h : specNumericDuration md with
  | some q =>
    decidable_of_iff ((md.assessment_time = none ∧ md.duration = none) ∨ q ≤ m)
      (by unfold KeepSpec; rw [h]; simp)
  | none =>
    decidable_of_iff (md.assessment_time = none ∧ md.duration = none)
      (by unfold KeepSpec; rw [h]; simp)

/-! ## `gemini_integration.py`: `_call_with_retry`

The function under retry is modelled as a map from the attempt number to
that attempt's outcome.  The model returns the final outcome (the error
is `none` only in the degenerate `max_retries = 0` case, where Python
would `raise None`), the list of `time.sleep` durations, and the number
of attempts made. -/

/-- The `while retries < max_retries` loop of `_call_with_retry`.  Each
failed attempt sleeps `2 ** retries` (also after the final attempt,
before the final `raise last_exception`). -/
def callRetryGo {E A : Type} (f : Nat → Except E A) (max_retries retries : Nat)
    (last : Option E) : Except (Option E) A × List Nat × Nat :=
  if h : retries < max_retries then
    match f retries with
    | .ok a => (.ok a, [], 1)
    | .error e =>
      let r := callRetryGo f max_retries (retries + 1) (some e)
      (r.1, (2 ^ retries) :: r.2.1, r.2.2 + 1)
  else
    (.error last, [], 0)
termination_by max_retries - retries
decreasing_by omega

/-- `GeminiIntegration._call_with_retry`: result, sleep schedule, and
number of attempts. -/
def call_with_retry {E A : Type} (f : Nat → Except E A) (max_retries : Nat) :
    Except (Option E) A × List Nat × Nat :=
  callRetryGo f max_retries 0 none

/-! ## `gemini_integration.py`: `rank_assessments` -/

/-- `re.search(r'\[.*?\]', text, re.DOTALL)`: the first `'['` paired
with the first `']'` after it, brackets included; `none` when there is
no such pair. -/
def extractBracket (l : List Char) : Option (List Char) :=
  match l.dropWhile (fun c => c ≠ '[') with
  | [] => none
  | _ :: rest =>
    if ']' ∈ rest then some ('[' :: (rest.takeWhile (fun c => c ≠ ']') ++ [']'])) else none

/-- A JSON integer literal: optional minus sign, digits, no leading
zeros. -/
def parseJsonInt (t : List Char) : Option Int :=
  match t with
  | '-' :: ds =>
    if ¬ ds.isEmpty ∧ ds.all Char.isDigit ∧ (ds.head? = some '0' → ds = ['0']) then
      some (-(digitsToNat ds : Int))
    else none
  | ds =>
    if ¬ ds.isEmpty ∧ ds.all Char.isDigit ∧ (ds.head? = some '0' → ds = ['0']) then
      some (digitsToNat ds : Int)
    else none

/-- `json.loads` restricted to the arrays of integers the ranking prompt
asks for; every other input is a parse failure.  (A JSON array of
non-integers would fail later anyway — indexing with a float or string
raises, reaching the same fallback; JSON booleans, which Python would
accept as indices, are outside this model and never produced by the
claims' inputs.) -/
def parseIntArray (arr : List Char) : Option (List Int) :=
  match arr with
  | '[' :: rest =>
    match rest.reverse with
    | ']' :: revMid =>
      let mid := pyStrip revMid.reverse
      if mid.isEmpty then some []
      else (splitComma mid).mapM fun p => parseJsonInt (pyStrip p)
    | _ => none
  | _ => none

/-- `GeminiIntegration.rank_assessments`.  The model reply to the
ranking prompt is the input `response` (`.error` = the retried call
ultimately raised).  Returns the ranked list together with the number of
generation calls made (0 or 1), to express "no model call".  The element
type is abstract: the function never inspects the candidates except to
format the prompt, which the reply subsumes. -/
def rank_assessments {α : Type} [Inhabited α] (response : Except Unit String)
    (search_results : List α) (max_recommendations : Nat) : List α × Nat :=
  if search_results.isEmpty then ([], 0)
  else if search_results.length ≤ max_recommendations then (search_results, 0)
  else
    match response with
    | .error _ => (search_results.take max_recommendations, 1)
    | .ok text =>
      let response_text := pyStripStr text
      match extractBracket response_text.data with
      | none => (search_results.take max_recommendations, 1)
      | some arr =>
        match parseIntArray arr with
        | none => (search_results.take max_recommendations, 1)
        | some indices =>
          let valid := indices.filter fun i =>
            decide (0 ≤ i ∧ i < (search_results.length : Int))
          let valid := valid.take max_recommendations
          (valid.map fun i => search_results.getD i.toNat default, 1)

/-- The index list `rank_assessments` ends up mapping over the
candidates, when the ranked path is taken at all (`none` on the skip,
raise and parse-failure paths). -/
def rankedIndices (response : Except Unit String) (n max_recommendations : Nat) :
    Option (List Int) :=
  if n ≤ max_recommendations then none
  else
    match response with
    | .error _ => none
    | .ok text =>
      (extractBracket (pyStripStr text).data).bind fun arr =>
        (parseIntArray arr).map fun indices =>
          (indices.filter fun i => decide (0 ≤ i ∧ i < (n : Int))).take max_recommendations

/-! ## `recommendation_system.py`: `get_recommendations` -/

/-- The deduplication loop of `get_recommendations`, with the set of
names already seen as an accumulator. -/
def dedupGo (seen : List MetaVal) : List SearchResult → List SearchResult
  | [] => []
  | r :: rest =>
    if r.name ∈ seen then dedupGo seen rest else r :: dedupGo (r.name :: seen) rest

/-- Deduplicate search results on the exact `name`, retaining the first
occurrence of each name in order. -/
def dedupByName (rs : List SearchResult) : List SearchResult :=
  dedupGo [] rs

/-- One row of the `DataFrame` `get_recommendations` returns. -/
structure Row : Type where
  assessmentName : MetaVal
  url : MetaVal
  remote_testing : String
  adaptive : String
  duration : String
  test_type : String
deriving DecidableEq, Inhabited

/-- The placeholder row returned when retrieval finds nothing. -/
def noMatchRow : Row where
  assessmentName := .str "No matching assessments found"
  url := .str ""
  remote_testing := ""
  adaptive := ""
  duration := ""
  test_type := ""

/-- Python `str(v)` for a metadata value (a rational renders by its
`ℚ` representation; the rendering of numbers never feeds a claim). -/
def pyStr : MetaVal → String
  | .str s => s
  | .num q => toString q

/-- Python truthiness of an optional metadata value (`None`, `""` and
`0` are falsy). -/
def optTruthy : Option MetaVal → Bool
  | none => false
  | some (.str s) => s ≠ ""
  | some (.num q) => q ≠ 0

/-- `"Yes" if value.lower() == "yes" else "No"` — `str.lower` over
ASCII; a numeric value (on which Python's `.lower()` would raise,
never produced by the pipeline) is treated as not-"yes". -/
def lowerIsYes : MetaVal → Bool
  | .str s => s.toLower = "yes"
  | .num _ => false

/-- The test-type code table from `recommendation_system.py`. -/
def testTypeMapping (c : String) : Option String :=
  if c = "A" then some "Ability/Aptitude Test"
  else if c = "B" then some "Bio-Data and Situational Judgement"
  else if c = "C" then some "Competency-based Assessment"
  else if c = "D" then some "Development and 360-Degree Feedback"
  else if c = "E" then some "Assessment Center Exercise"
  else if c = "K" then some "Knowledge and Skills Test"
  else if c = "P" then some "Personality and Behaviour Assessment"
  else if c = "S" then some "Simulations"
  else none

/-- The duration column: `assessment_time` first (numbers get a
`" minutes"` suffix, strings pass through `str`), else `duration` with
the suffix, else `""`; Python truthiness decides presence. -/
def durationColumn (r : SearchResult) : String :=
  if optTruthy r.assessment_time then
    match r.assessment_time with
    | some (.num q) => toString q ++ " minutes"
    | some (.str s) => s
    | none => ""
  else if optTruthy r.duration then
    match r.duration with
    | some v => pyStr v ++ " minutes"
    | none => ""
  else ""

/-- The test-type column: split the stored `test_type` on `", "`, strip
each code, expand known codes through `testTypeMapping`, keep unknown
non-empty codes verbatim, drop empties; `"Not specified"` when nothing
remains.  (A numeric `test_type`, on which Python's `.split` would
raise, is rendered via `str`; the pipeline stores only strings here.) -/
def testTypeColumn (r : SearchResult) : String :=
  let parts :=
    match r.test_type with
    | .str s => s.splitOn ", "
    | .num q => [toString q]
  let info := parts.foldr
    (fun code acc =>
      let code := pyStripStr code
      match testTypeMapping code with
      | some desc => (code ++ " (" ++ desc ++ ")") :: acc
      | none => if code ≠ "" then code :: acc else acc)
    []
  if info.isEmpty then "Not specified" else String.intercalate ", " info

/-- One output row of `get_recommendations` for a ranked result. -/
def rowOf (r : SearchResult) : Row where
  assessmentName := r.name
  url := r.url
  remote_testing := if lowerIsYes r.remote_testing then "Yes" else "No"
  adaptive := if lowerIsYes r.adaptive then "Yes" else "No"
  duration := durationColumn r
  test_type := testTypeColumn r

/-- `SHLRecommendationSystem.get_recommendations`.  The query's effects
on the network are inputs: `max_duration` is what
`extract_duration_from_query` produced, `retrieved` is what the vector
store returned for the expanded query, and `rank_response` is the
ranking model's reply (or its failure). -/
def get_recommendations (retrieved : List Doc) (max_duration : Option ℚ)
    (rank_response : Except Unit String) (max_results : Nat) : List Row :=
  let search_results := search_assessments retrieved max_duration
  if search_results.isEmpty then [noMatchRow]
  else
    let unique_results := dedupByName search_results
    let ranked := (rank_assessments rank_response unique_results max_results).1
    ranked.map rowOf

/-- Whether an `Except` result is a success. -/
def exceptOk {E A : Type} : Except E A → Bool
  | .ok _ => true
  | .error _ => false

/-- An all-ones embedding, used as a stand-in provider reply. -/
def one768 : List ℚ :=
  List.replicate 768 (1 : ℚ)

/-- A provider that succeeds on every text. -/
def pOkOne : String → Except Unit (List ℚ) :=
  fun _ => .ok one768

/-- The 50 texts `"t0"`, …, `"t49"` of a full rebuild batch. -/
def textsC2 : List String :=
  (List.range 50).map fun i => "t" ++ toString i

/-- A provider that raises exactly on `"t7"`. -/
def providerC2 : String → Except Unit (List ℚ) :=
  fun t => if t = "t7" then .error () else .ok one768

/-- 50 documents whose page contents are `"t0"`, …, `"t49"`. -/
def docsC2 : List Doc :=
  (List.range 50).map fun i => ⟨"t" ++ toString i, {}⟩

/-! ## Concrete documents used by examples and witnesses -/

/-- A document whose `assessment_time` is a plain non-numeric string. -/
def docAbc : Doc :=
  ⟨"abc content", { assessment_time := some (.str "abc") }⟩

/-- A document with numeric duration 45. -/
def doc45 : Doc :=
  ⟨"doc45", { duration := some (.num 45) }⟩

/-- A document with numeric duration 20. -/
def doc20 : Doc :=
  ⟨"doc20", { duration := some (.num 20) }⟩

/-- A document with no duration-related field at all. -/
def docNoDur : Doc :=
  ⟨"docNoDur", {}⟩

/-- A document named `"A"`. -/
def docA : Doc :=
  ⟨"a", { name := some (.str "A") }⟩

/-- A document named `"B"`. -/
def docB : Doc :=
  ⟨"b", { name := some (.str "B") }⟩

/-- A document named `"C"`. -/
def docC : Doc :=
  ⟨"c", { name := some (.str "C") }⟩

/-! ## Helper lemmas: duration filter -/

/-- The `filter_by_duration` loop is `List.filter` over the
per-document keep test. -/
theorem filterLoop_eq_filter (m : ℚ) (docs : List Doc) :
    filterLoop m docs = docs.filter fun d => keepDoc d.metadata m := by
  induction docs with
  | nil => rfl
  | cons d ds ih => by_cases h : keepDoc d.metadata m <;> simp [filterLoop, h, ih]

/-- The code's keep test agrees with the spec's formulation. -/
theorem keepDoc_eq_keepSpec (md : Metadata) (m : ℚ) :
    keepDoc md m = decide (KeepSpec md m) := by
  have hval : ∀ v : MetaVal, keepVal v m = decide (∃ q, parseNumVal v = some q ∧ q ≤ m) := by
    intro v
    cases v with
    | num q => simp [keepVal, convertDurationVal, parseNumVal]
    | str s =>
      by_cases h : (pyIsdigit (removeFirstDot s.data) : Prop) <;>
        simp [keepVal, convertDurationVal, parseNumVal, h]
  cases hat : md.assessment_time with
  | some v => simp [keepDoc, hat, hval, KeepSpec, specNumericDuration]
  | none =>
    cases hd : md.duration with
    | some v => simp [keepDoc, hat, hd, hval, KeepSpec, specNumericDuration]
    | none => simp [keepDoc, hat, hd, KeepSpec, specNumericDuration]

/-! ## C1 -/

/-- C1: a document whose `assessment_time` holds the non-numeric string
`"abc"` — which fails the digit test, so `float` is never attempted and
no exception fires — is dropped by `filter_by_duration` under the
constraint 30, although the spec (and the code's own
"benefit of the doubt" comment) say it is kept. -/
theorem filter_by_duration_drops_unparsable :
    parseNumVal (.str "abc") = none ∧ filter_by_duration [docAbc] (some 30) = [] := by
  constructor
  · rfl
  · rfl

/-! ## C3 -/

/-- C3: under a positive numeric constraint, `filter_by_duration` keeps
exactly the documents with no duration-related field at all, or whose
numeric duration — taken from `assessment_time` when that field exists,
else from `duration` — is at most the constraint; in particular
duration 45 is excluded under constraint 30, duration 20 is included,
and a document with neither field is always included. -/
theorem filter_by_duration_keep_spec :
    (∀ (docs : List Doc) (m : ℚ), 0 < m →
      filter_by_duration docs (some m) = docs.filter fun d => decide (KeepSpec d.metadata m))
    ∧ filter_by_duration [doc45] (some 30) = []
    ∧ filter_by_duration [doc20] (some 30) = [doc20]
    ∧ ∀ m : ℚ, 0 < m → filter_by_duration [docNoDur] (some m) = [docNoDur] := by
  have main : ∀ (docs : List Doc) (m : ℚ), 0 < m →
      filter_by_duration docs (some m) = docs.filter fun d => decide (KeepSpec d.metadata m) := by
    intro docs m hm
    have hm0 : ¬ m = 0 := by positivity
    simp only [filter_by_duration, if_neg hm0, filterLoop_eq_filter]
    exact List.filter_congr fun d _ => keepDoc_eq_keepSpec d.metadata m
  refine ⟨main, by decide, by decide, ?_⟩
  intro m hm
  rw [main [docNoDur] m hm]
  simp [docNoDur, KeepSpec]

/-- Witness for C3 at the spec's own example inputs. -/
theorem filter_by_duration_keep_spec_witness :
    (0 : ℚ) < 30 ∧
      filter_by_duration [doc45, doc20, docNoDur] (some 30) =
        ([doc45, doc20, docNoDur].filter fun d => decide (KeepSpec d.metadata 30)) :=
  ⟨by norm_num, filter_by_duration_keep_spec.1 [doc45, doc20, docNoDur] 30 (by norm_num)⟩

/-! ## C9 -/

/-- C9: a `max_duration` of `0` is falsy in Python, so
`filter_by_duration` returns its input unchanged and
`search_assessments` skips the duration filter entirely. -/
theorem filter_by_duration_zero_no_op :
    ∀ docs : List Doc,
      filter_by_duration docs (some 0) = docs ∧
        search_assessments docs (some 0) = docs.map toSearchResult := by
  intro docs
  refine ⟨by simp [filter_by_duration], ?_⟩
  cases docs <;> simp [search_assessments]

/-! ## C6 -/

/-- C6: with at most `max_recommendations` candidates,
`rank_assessments` returns the candidate list unchanged and makes no
generation call. -/
theorem rank_assessments_skip {α : Type} [Inhabited α] (response : Except Unit String)
    (search_results : List α) (max_recommendations : Nat)
    (h : search_results.length ≤ max_recommendations) :
    rank_assessments response search_results max_recommendations = (search_results, 0) := by
  cases search_results with
  | nil => simp [rank_assessments]
  | cons x xs =>
    unfold rank_assessments
    simp [h]
    intro hcon
    exfalso
    simp only [List.length_cons] at h
    omega

/-- Witness for C6: three candidates, `max_recommendations = 10`. -/
theorem rank_assessments_skip_witness :
    ([1, 2, 3] : List Nat).length ≤ 10 ∧
      rank_assessments (.ok "[0]") ([1, 2, 3] : List Nat) 10 = ([1, 2, 3], 0) :=
  ⟨by decide, rank_assessments_skip (.ok "[0]") [1, 2, 3] 10 (by decide)⟩

/-! ## C4 -/

/-- C4: with more candidates than `max_recommendations`, a raised
ranking call, a reply without a bracketed array, or a bracketed array
that is invalid JSON all fall back to the first `max_recommendations`
candidates in their original order. -/
theorem rank_assessments_fallback {α : Type} [Inhabited α] (response : Except Unit String)
    (search_results : List α) (max_recommendations : Nat)
    (hlen : max_recommendations < search_results.length)
    (hfail : response = .error () ∨
      (∃ txt, response = .ok txt ∧ extractBracket (pyStripStr txt).data = none) ∨
      (∃ txt arr, response = .ok txt ∧ extractBracket (pyStripStr txt).data = some arr ∧
        parseIntArray arr = none)) :
    (rank_assessments response search_results max_recommendations).1 =
      search_results.take max_recommendations := by
  have hne : ¬ search_results.isEmpty := by
    cases search_results with
    | nil => simp at hlen
    | cons x xs => simp
  have hgt : ¬ search_results.length ≤ max_recommendations := Nat.not_le.mpr hlen
  rcases hfail with rfl | ⟨txt, rfl, hx⟩ | ⟨txt, arr, rfl, hx, hp⟩
  · simp [rank_assessments, hne, hgt]
  · simp [rank_assessments, hne, hgt, hx]
  · simp [rank_assessments, hne, hgt, hx, hp]

/-- Witness for C4: a reply with no bracketed array over three
candidates with `max_recommendations = 2`. -/
theorem rank_assessments_fallback_witness :
    2 < ([10, 20, 30] : List Nat).length ∧
      (rank_assessments (.ok "no brackets") ([10, 20, 30] : List Nat) 2).1 = [10, 20] :=
  ⟨by decide,
    rank_assessments_fallback (.ok "no brackets") [10, 20, 30] 2 (by decide)
      (Or.inr (Or.inl ⟨"no brackets", rfl, by decide⟩))⟩

/-! ## C8 -/

/-- C8: `_call_with_retry` makes at most 3 attempts; when all three
fail it sleeps 1, 2 and 4 units after the successive failures and
re-raises the last exception. -/
theorem call_with_retry_spec {E A : Type} (f : Nat → Except E A) :
    (call_with_retry f 3).2.2 ≤ 3 ∧
      ∀ e0 e1 e2, f 0 = .error e0 → f 1 = .error e1 → f 2 = .error e2 →
        call_with_retry f 3 = (.error (some e2), [1, 2, 4], 3) := by
  constructor
  · rcases h0 : f 0 with e0 | a0
    · rcases h1 : f 1 with e1 | a1
      · rcases h2 : f 2 with e2 | a2 <;>
          simp [call_with_retry, callRetryGo, h0, h1, h2]
      · simp [call_with_retry, callRetryGo, h0, h1]
    · simp [call_with_retry, callRetryGo, h0]
  · intro e0 e1 e2 h0 h1 h2
    simp [call_with_retry, callRetryGo, h0, h1, h2]

/-- Witness for C8: a call that fails on every attempt. -/
theorem call_with_retry_spec_witness :
    (call_with_retry (fun _ => (Except.error 5 : Except Nat Nat)) 3).2.2 ≤ 3 ∧
      call_with_retry (fun _ => (Except.error 5 : Except Nat Nat)) 3 =
        (.error (some 5), [1, 2, 4], 3) :=
  ⟨(call_with_retry_spec fun _ => (Except.error 5 : Except Nat Nat)).1,
    (call_with_retry_spec fun _ => (Except.error 5 : Except Nat Nat)).2 5 5 5 rfl rfl rfl⟩

/-! ## Helper lemmas: `_embed_texts` -/

/-- A successful batch has one embedding per text, each produced by
`embedOne` on the corresponding text. -/
theorem tryBatch_ok_get (p : String → Except Unit (List ℚ)) :
    ∀ (batch : List String) (es : List (List ℚ)), tryBatch p batch = .ok es →
      es.length = batch.length ∧ ∀ j, j < batch.length →
        ∃ t v, batch[j]? = some t ∧ es[j]? = some v ∧ embedOne p t = .ok v := by
  intro batch
  induction batch with
  | nil =>
    intro es h
    simp only [tryBatch, Except.ok.injEq] at h
    subst h
    exact ⟨rfl, fun j hj => by simp at hj⟩
  | cons t ts ih =>
    intro es h
    unfold tryBatch at h
    cases he : embedOne p t with
    | error e => rw [he] at h; exact absurd h (by simp)
    | ok v =>
      rw [he] at h
      cases hr : tryBatch p ts with
      | error e => rw [hr] at h; exact absurd h (by simp)
      | ok vs =>
        rw [hr] at h
        simp only [Except.ok.injEq] at h
        subst h
        obtain ⟨hlen, hpt⟩ := ih vs hr
        refine ⟨by simp [hlen], ?_⟩
        intro j hj
        cases j with
        | zero => exact ⟨t, v, by simp, by simp, he⟩
        | succ j =>
          obtain ⟨t', v', h1, h2, h3⟩ := hpt j (by simpa using hj)
          exact ⟨t', v', by simpa using h1, by simpa using h2, h3⟩

/-- If some text of the batch makes `embedOne` raise, the whole batch
raises. -/
theorem tryBatch_error_of_mem (p : String → Except Unit (List ℚ)) :
    ∀ batch : List String, (∃ x ∈ batch, ∃ e, embedOne p x = .error e) →
      ∃ e, tryBatch p batch = .error e := by
  intro batch
  induction batch with
  | nil => rintro ⟨x, hx, _⟩; simp at hx
  | cons t ts ih =>
    rintro ⟨x, hx, e, he⟩
    cases hht : embedOne p t with
    | error e' => exact ⟨e', by simp [tryBatch, hht]⟩
    | ok v =>
      rcases List.mem_cons.mp hx with rfl | hx'
      · rw [hht] at he; exact absurd he (by simp)
      · obtain ⟨e', he'⟩ := ih ⟨x, hx', e, he⟩
        exact ⟨e', by simp [tryBatch, hht, he']⟩

/-- Conversely, a raising batch contains a text on which `embedOne`
raises. -/
theorem tryBatch_error_mem (p : String → Except Unit (List ℚ)) :
    ∀ (batch : List String) (e : Unit), tryBatch p batch = .error e →
      ∃ x ∈ batch, ∃ e', embedOne p x = .error e' := by
  intro batch
  induction batch with
  | nil => intro e h; simp [tryBatch] at h
  | cons t ts ih =>
    intro e h
    unfold tryBatch at h
    cases he : embedOne p t with
    | error e' => exact ⟨t, by simp, e', he⟩
    | ok v =>
      rw [he] at h
      cases hr : tryBatch p ts with
      | error e'' =>
        obtain ⟨x, hx, hxe⟩ := ih e'' hr
        exact ⟨x, by simp [hx], hxe⟩
      | ok vs => rw [hr] at h; exact absurd h (by simp)

/-- One batch of `_embed_texts` yields one embedding per input text. -/
theorem embedChunk_length (p : String → Except Unit (List ℚ)) (batch : List String) :
    (embedChunk p batch).length = batch.length := by
  unfold embedChunk
  cases h : tryBatch p batch with
  | ok es => exact (tryBatch_ok_get p batch es h).1
  | error e => simp

/-- The `_embed_texts` batch loop: one embedding per input text. -/
theorem embedGo_length (p : String → Except Unit (List ℚ)) :
    ∀ (n : Nat) (l : List String), l.length ≤ n →
      (embedGo p n l).length = l.length := by
  intro n
  induction n with
  | zero =>
    intro l hl
    have : l = [] := List.eq_nil_of_length_eq_zero (Nat.le_zero.mp hl)
    subst this
    rfl
  | succ n ih =>
    intro l hl
    cases l with
    | nil => rfl
    | cons t ts =>
      simp only [embedGo]
      rw [List.length_append, embedChunk_length,
        ih ((t :: ts).drop 10) (by simp at hl ⊢; omega)]
      rw [← List.length_append, List.take_append_drop]

/-- `_embed_texts` returns exactly one embedding per input text. -/
theorem embed_texts_length (p : String → Except Unit (List ℚ)) (l : List String) :
    (embed_texts p l).length = l.length :=
  embedGo_length p l.length l le_rfl

/-- `_embed_texts` (fuelled): each output entry is the zero vector or
the `embedOne` result on the corresponding text. -/
theorem embed_texts_get_fuel (p : String → Except Unit (List ℚ)) :
    ∀ (n : Nat) (l : List String) (i : Nat), l.length ≤ n → i < l.length →
      ∃ v, (embedGo p n l)[i]? = some v ∧
        (v = zero768 ∨ embedOne p (l.getD i "") = .ok v) := by
  intro n
  induction n with
  | zero => intro l i hl hi; omega
  | succ n ih =>
    intro l i hl hi
    cases l with
    | nil => simp at hi
    | cons a ts =>
      have hcl : (embedChunk p ((a :: ts).take 10)).length = ((a :: ts).take 10).length :=
        embedChunk_length p _
      have hlc : (a :: ts).length = ts.length + 1 := by simp
      have htk : ((a :: ts).take 10).length = min 10 (ts.length + 1) := by
        rw [List.length_take, hlc]
      simp only [embedGo]
      by_cases hc : i < ((a :: ts).take 10).length
      · rw [List.getElem?_append_left (by rw [hcl]; exact hc)]
        have h10 : i < 10 := by omega
        unfold embedChunk
        cases htb : tryBatch p ((a :: ts).take 10) with
        | error e =>
          refine ⟨zero768, ?_, Or.inl rfl⟩
          rw [List.getElem?_map, List.getElem?_eq_getElem hc]
          simp
        | ok es =>
          obtain ⟨hlen, hpt⟩ := tryBatch_ok_get p _ es htb
          obtain ⟨t, v, ht, hv, hov⟩ := hpt i hc
          refine ⟨v, hv, Or.inr ?_⟩
          have : (a :: ts).getD i "" = t := by
            rw [List.getD_eq_getElem?_getD, ← List.getElem?_take_of_lt h10, ht]
            rfl
          rw [this]
          exact hov
      · have hlen10 : ((a :: ts).take 10).length = 10 := by
          have := List.length_take 10 (a :: ts)
          simp only [List.length_cons] at hi ⊢
          omega
        rw [List.getElem?_append_right (by omega)]
        rw [hcl, hlen10]
        obtain ⟨v, hv, hd⟩ :=
          ih ((a :: ts).drop 10) (i - 10) (by simp at hl ⊢; omega) (by simp at hi ⊢; omega)
        refine ⟨v, hv, ?_⟩
        rcases hd with hd | hd
        · exact Or.inl hd
        · refine Or.inr ?_
          have harg : ((a :: ts).drop 10).getD (i - 10) "" = (a :: ts).getD i "" := by
            rw [List.getD_eq_getElem?_getD, List.getD_eq_getElem?_getD,
              List.getElem?_drop]
            have : 10 + (i - 10) = i := by omega
            rw [this]
          rw [harg] at hd
          exact hd

/-- `_embed_texts` (fuelled): a raising text zeroes its whole batch of
10. -/
theorem embed_texts_chunkfail_fuel (p : String → Except Unit (List ℚ)) :
    ∀ (n : Nat) (l : List String) (i j : Nat), l.length ≤ n → i < l.length →
      j < l.length → i / 10 = j / 10 →
      (∃ e, embedOne p (l.getD j "") = .error e) →
      (embedGo p n l)[i]? = some zero768 := by
  intro n
  induction n with
  | zero => intro l i j hl hi hj hij hfail; omega
  | succ n ih =>
    intro l i j hl hi hj hij hfail
    cases l with
    | nil => simp at hi
    | cons a ts =>
      have hcl : (embedChunk p ((a :: ts).take 10)).length = ((a :: ts).take 10).length :=
        embedChunk_length p _
      have hlc : (a :: ts).length = ts.length + 1 := by simp
      have htk : ((a :: ts).take 10).length = min 10 (ts.length + 1) := by
        rw [List.length_take, hlc]
      simp only [embedGo]
      by_cases hc : i < ((a :: ts).take 10).length
      · have h10 : i < 10 := by
          have := List.length_take 10 (a :: ts)
          omega
        have hj10 : j < 10 := by omega
        have hjc : j < ((a :: ts).take 10).length := by omega
        rw [List.getElem?_append_left (by rw [hcl]; exact hc)]
        have hmem : (a :: ts).getD j "" ∈ (a :: ts).take 10 := by
          apply List.mem_iff_getElem?.mpr
          refine ⟨j, ?_⟩
          rw [List.getElem?_take_of_lt hj10, List.getD_eq_getElem?_getD,
            List.getElem?_eq_getElem hj]
          rfl
        obtain ⟨e', htb⟩ := tryBatch_error_of_mem p _ ⟨_, hmem, hfail⟩
        unfold embedChunk
        rw [htb]
        rw [List.getElem?_map, List.getElem?_eq_getElem hc]
        simp
      · have hlen10 : ((a :: ts).take 10).length = 10 := by
          have := List.length_take 10 (a :: ts)
          simp only [List.length_cons] at hi ⊢
          omega
        have hi10 : 10 ≤ i := by omega
        have hj10 : 10 ≤ j := by omega
        rw [List.getElem?_append_right (by omega), hcl, hlen10]
        have harg : ((a :: ts).drop 10).getD (j - 10) "" = (a :: ts).getD j "" := by
          rw [List.getD_eq_getElem?_getD, List.getD_eq_getElem?_getD, List.getElem?_drop]
          have : 10 + (j - 10) = j := by omega
          rw [this]
        apply ih ((a :: ts).drop 10) (i - 10) (j - 10) (by simp at hl ⊢; omega)
          (by simp at hi ⊢; omega) (by simp at hj ⊢; omega) (by omega)
        rw [harg]
        exact hfail

/-- `_embed_texts` (fuelled): in a batch where every text embeds
successfully, each text keeps its own embedding. -/
theorem embed_texts_chunkok_fuel (p : String → Except Unit (List ℚ)) :
    ∀ (n : Nat) (l : List String) (i : Nat), l.length ≤ n → i < l.length →
      (∀ k, k < l.length → k / 10 = i / 10 → exceptOk (embedOne p (l.getD k "")) = true) →
      ∀ v, embedOne p (l.getD i "") = .ok v → (embedGo p n l)[i]? = some v := by
  intro n
  induction n with
  | zero => intro l i hl hi; omega
  | succ n ih =>
    intro l i hl hi hok v hv
    cases l with
    | nil => simp at hi
    | cons a ts =>
      have hcl : (embedChunk p ((a :: ts).take 10)).length = ((a :: ts).take 10).length :=
        embedChunk_length p _
      have hlc : (a :: ts).length = ts.length + 1 := by simp
      have htk : ((a :: ts).take 10).length = min 10 (ts.length + 1) := by
        rw [List.length_take, hlc]
      simp only [embedGo]
      by_cases hc : i < ((a :: ts).take 10).length
      · have h10 : i < 10 := by
          have := List.length_take 10 (a :: ts)
          omega
        rw [List.getElem?_append_left (by rw [hcl]; exact hc)]
        unfold embedChunk
        cases htb : tryBatch p ((a :: ts).take 10) with
        | error e =>
          exfalso
          obtain ⟨x, hx, e', hxe⟩ := tryBatch_error_mem p _ e htb
          obtain ⟨k, hk⟩ := List.mem_iff_getElem?.mp hx
          have hk10 : k < ((a :: ts).take 10).length := by
            by_contra hk'
            rw [List.getElem?_eq_none (by omega)] at hk
            exact absurd hk (by simp)
          have hkl : k < (a :: ts).length := by omega
          have hkd : (a :: ts).getD k "" = x := by
            rw [List.getD_eq_getElem?_getD, ← List.getElem?_take_of_lt (show k < 10 by omega), hk]
            rfl
          have := hok k hkl (by omega)
          rw [hkd, hxe] at this
          simp [exceptOk] at this
        | ok es =>
          obtain ⟨hlen, hpt⟩ := tryBatch_ok_get p _ es htb
          obtain ⟨t, v', ht, hv', hov⟩ := hpt i hc
          have hteq : (a :: ts).getD i "" = t := by
            rw [List.getD_eq_getElem?_getD, ← List.getElem?_take_of_lt h10, ht]
            rfl
          rw [hteq, hov] at hv
          cases hv
          exact hv'
      · have hlen10 : ((a :: ts).take 10).length = 10 := by
          have := List.length_take 10 (a :: ts)
          simp only [List.length_cons] at hi ⊢
          omega
        have hi10 : 10 ≤ i := by omega
        rw [List.getElem?_append_right (by omega), hcl, hlen10]
        have harg : ∀ m, ((a :: ts).drop 10).getD m "" = (a :: ts).getD (10 + m) "" := by
          intro m
          rw [List.getD_eq_getElem?_getD, List.getD_eq_getElem?_getD, List.getElem?_drop]
        apply ih ((a :: ts).drop 10) (i - 10) (by simp at hl ⊢; omega)
          (by simp at hi ⊢; omega)
        · intro k hk hkchunk
          rw [harg k]
          apply hok (10 + k) (by simp at hk ⊢; omega) (by omega)
        · rw [harg (i - 10)]
          have : 10 + (i - 10) = i := by omega
          rw [this]
          exact hv

/-! ## Helper lemmas: `create_vector_db` -/

/-- Zipping four lists of equal length preserves that length. -/
theorem zipEntries_length :
    ∀ (n : Nat) (is ts : List String) (es : List (List ℚ)) (ms : List ChromaMeta),
      is.length = n → ts.length = n → es.length = n → ms.length = n →
      (zipEntries is ts es ms).length = n := by
  intro n
  induction n with
  | zero =>
    intro is ts es ms h1 h2 h3 h4
    rw [List.eq_nil_of_length_eq_zero h1, List.eq_nil_of_length_eq_zero h2,
      List.eq_nil_of_length_eq_zero h3, List.eq_nil_of_length_eq_zero h4]
    rfl
  | succ n ih =>
    intro is ts es ms h1 h2 h3 h4
    cases is with
    | nil => simp at h1
    | cons i is =>
      cases ts with
      | nil => simp at h2
      | cons t ts =>
        cases es with
        | nil => simp at h3
        | cons e es =>
          cases ms with
          | nil => simp at h4
          | cons m ms =>
            simp only [zipEntries, List.length_cons]
            rw [ih is ts es ms (by simpa using h1) (by simpa using h2)
              (by simpa using h3) (by simpa using h4)]

/-- One `create_vector_db` batch contributes one entry per document. -/
theorem batchEntries_length (p : String → Except Unit (List ℚ)) (offset : Nat)
    (batch : List Doc) : (batchEntries p offset batch).length = batch.length := by
  unfold batchEntries
  apply zipEntries_length <;> simp [embed_texts_length]

/-- The `create_vector_db` batch loop adds one entry per document. -/
theorem createGo_len_fuel (p : String → Except Unit (List ℚ)) :
    ∀ (n : Nat) (offset : Nat) (l : List Doc), l.length ≤ n →
      (createGo p n offset l).length = l.length := by
  intro n
  induction n with
  | zero =>
    intro offset l hl
    have : l = [] := List.eq_nil_of_length_eq_zero (Nat.le_zero.mp hl)
    subst this
    rfl
  | succ n ih =>
    intro offset l hl
    cases l with
    | nil => rfl
    | cons d ds =>
      simp only [createGo]
      rw [List.length_append, batchEntries_length,
        ih (offset + 50) ((d :: ds).drop 50) (by simp at hl ⊢; omega)]
      rw [← List.length_append, List.take_append_drop]

/-- `create_vector_db` indexes one entry per document. -/
theorem create_vector_db_length (p : String → Except Unit (List ℚ)) (docs : List Doc) :
    (create_vector_db p docs).length = docs.length := by
  unfold create_vector_db
  cases docs with
  | nil => rfl
  | cons d ds =>
    rw [if_neg (by simp)]
    exact createGo_len_fuel p (d :: ds).length 0 (d :: ds) le_rfl

/-! ## C10 -/

/-- C10: `_embed_texts` returns one embedding per input text, in order;
each entry is the provider's embedding of the corresponding text or the
768-dimensional zero vector, and empty/whitespace-only texts always get
the zero vector. -/
theorem embed_texts_invariant (p : String → Except Unit (List ℚ)) (texts : List String) :
    (embed_texts p texts).length = texts.length
    ∧ (∀ i, i < texts.length →
        (embed_texts p texts).getD i [] = zero768 ∨
          p (texts.getD i "") = .ok ((embed_texts p texts).getD i []))
    ∧ ∀ i, i < texts.length → pyBlank (texts.getD i "") →
        (embed_texts p texts).getD i [] = zero768 := by
  refine ⟨embed_texts_length p texts, ?_, ?_⟩
  · intro i hi
    unfold embed_texts
    obtain ⟨v, hv, hd⟩ := embed_texts_get_fuel p texts.length texts i le_rfl hi
    have hgd : (embedGo p texts.length texts).getD i [] = v := by
      rw [List.getD_eq_getElem?_getD, hv]
      rfl
    rw [hgd]
    rcases hd with rfl | hd
    · exact Or.inl rfl
    · unfold embedOne at hd
      by_cases hb : pyBlank (texts.getD i "")
      · rw [if_pos hb] at hd
        simp only [Except.ok.injEq] at hd
        exact Or.inl hd.symm
      · rw [if_neg hb] at hd
        exact Or.inr hd
  · intro i hi hb
    unfold embed_texts
    obtain ⟨v, hv, hd⟩ := embed_texts_get_fuel p texts.length texts i le_rfl hi
    have hgd : (embedGo p texts.length texts).getD i [] = v := by
      rw [List.getD_eq_getElem?_getD, hv]
      rfl
    rw [hgd]
    rcases hd with rfl | hd
    · rfl
    · unfold embedOne at hd
      rw [if_pos hb] at hd
      simp only [Except.ok.injEq] at hd
      exact hd.symm

/-- Witness for C10: a succeeding provider over a normal text and a
whitespace-only text. -/
theorem embed_texts_invariant_witness :
    (embed_texts pOkOne ["x", " "]).length = 2
    ∧ ((embed_texts pOkOne ["x", " "]).getD 0 [] = zero768 ∨
        pOkOne "x" = .ok ((embed_texts pOkOne ["x", " "]).getD 0 []))
    ∧ (embed_texts pOkOne ["x", " "]).getD 1 [] = zero768 :=
  ⟨(embed_texts_invariant pOkOne ["x", " "]).1,
    (embed_texts_invariant pOkOne ["x", " "]).2.1 0 (by decide),
    (embed_texts_invariant pOkOne ["x", " "]).2.2 1 (by decide) (by decide)⟩

/-! ## C2 -/

set_option maxRecDepth 8000 in
/-- Counterexample for C2 as stated: with 50 non-blank texts and a
provider that raises on exactly one of them (`"t7"`), `_embed_texts`
still returns 50 embeddings, but ten of them — the failing text's whole
batch of 10 — are zero vectors, not exactly one. -/
theorem embed_failure_not_single_zero :
    textsC2.length = 50
    ∧ textsC2.countP (fun t => !exceptOk (providerC2 t)) = 1
    ∧ (embed_texts providerC2 textsC2).length = 50
    ∧ (embed_texts providerC2 textsC2).countP (fun v => decide (v = zero768)) = 10
    ∧ ¬ (embed_texts providerC2 textsC2).countP (fun v => decide (v = zero768)) = 1 :=
  ⟨by decide, by decide, by decide, by decide, by decide⟩

/-- C2 (amended): if the provider raises for one document of a rebuild
batch of 50, the rebuild still completes and indexes all 50 documents
and `_embed_texts` returns one embedding per input; the failed document
is never dropped — it and every other document of its embedding batch
of 10 carry the zero vector, while the documents of the other, fully
successful batches keep their own provider embeddings. -/
theorem embed_failure_batch (p : String → Except Unit (List ℚ)) (docs : List Doc) (j : Nat)
    (hlen : docs.length = 50)
    (hnb : ∀ d ∈ docs, ¬ pyBlank d.page_content)
    (hj : j < 50)
    (hfail : ∃ e, p ((docs.map fun d => d.page_content).getD j "") = .error e) :
    (create_vector_db p docs).length = 50
    ∧ (embed_texts p (docs.map fun d => d.page_content)).length = 50
    ∧ (∀ i, i < 50 → i / 10 = j / 10 →
        (embed_texts p (docs.map fun d => d.page_content)).getD i [] = zero768)
    ∧ ((∀ k, k < 50 → k ≠ j →
          exceptOk (p ((docs.map fun d => d.page_content).getD k "")) = true) →
        ∀ i, i < 50 → i / 10 ≠ j / 10 → ∀ v,
          p ((docs.map fun d => d.page_content).getD i "") = .ok v →
          (embed_texts p (docs.map fun d => d.page_content)).getD i [] = v) := by
  have htl : (docs.map fun d => d.page_content).length = 50 := by simp [hlen]
  have hnbt : ∀ i, i < 50 →
      ¬ pyBlank ((docs.map fun d => d.page_content).getD i "") := by
    intro i hi
    have hi' : i < docs.length := by omega
    have hmem : docs.getD i default ∈ docs := by
      rw [List.getD_eq_getElem?_getD, List.getElem?_eq_getElem hi']
      exact List.getElem_mem hi'
    have harg : (docs.map fun d => d.page_content).getD i "" =
        (docs.getD i default).page_content := by
      rw [List.getD_eq_getElem?_getD, List.getElem?_map, List.getElem?_eq_getElem hi',
        List.getD_eq_getElem?_getD, List.getElem?_eq_getElem hi']
      rfl
    rw [harg]
    exact hnb _ hmem
  have hone : ∀ i, i < 50 →
      embedOne p ((docs.map fun d => d.page_content).getD i "") =
        p ((docs.map fun d => d.page_content).getD i "") := by
    intro i hi
    unfold embedOne
    rw [if_neg (hnbt i hi)]
  refine ⟨?_, ?_, ?_, ?_⟩
  · rw [create_vector_db_length, hlen]
  · rw [embed_texts_length, htl]
  · intro i hi hchunk
    unfold embed_texts
    have hfail' : ∃ e, embedOne p ((docs.map fun d => d.page_content).getD j "") = .error e := by
      rw [hone j hj]
      exact hfail
    have hres := embed_texts_chunkfail_fuel p (docs.map fun d => d.page_content).length
      (docs.map fun d => d.page_content) i j le_rfl (by omega) (by omega) hchunk hfail'
    rw [List.getD_eq_getElem?_getD, hres]
    rfl
  · intro hok i hi hchunk v hv
    unfold embed_texts
    have hchunkok : ∀ k, k < (docs.map fun d => d.page_content).length → k / 10 = i / 10 →
        exceptOk (embedOne p ((docs.map fun d => d.page_content).getD k "")) = true := by
      intro k hk hkdiv
      rw [hone k (by omega)]
      apply hok k (by omega)
      intro hkj
      rw [hkj] at hkdiv
      exact hchunk hkdiv.symm
    have hv' : embedOne p ((docs.map fun d => d.page_content).getD i "") = .ok v := by
      rw [hone i (by omega)]
      exact hv
    have hres := embed_texts_chunkok_fuel p (docs.map fun d => d.page_content).length
      (docs.map fun d => d.page_content) i le_rfl (by omega) hchunkok v hv'
    rw [List.getD_eq_getElem?_getD, hres]
    rfl

set_option maxRecDepth 8000 in
/-- Witness for C2 (amended) at the concrete failing rebuild. -/
theorem embed_failure_batch_witness :
    docsC2.length = 50
    ∧ (create_vector_db providerC2 docsC2).length = 50
    ∧ (embed_texts providerC2 (docsC2.map fun d => d.page_content)).getD 3 [] = zero768
    ∧ (embed_texts providerC2 (docsC2.map fun d => d.page_content)).getD 13 [] = one768 :=
  have h := embed_failure_batch providerC2 docsC2 7 (by decide) (by decide) (by decide)
    ⟨(), rfl⟩
  ⟨by decide, h.1, h.2.2.1 3 (by decide) (by decide),
    h.2.2.2 (by decide) 13 (by decide) (by decide) one768 rfl⟩

/-! ## Helper lemmas: deduplication -/

/-- The deduplication loop returns a sublist (order-preserving). -/
theorem dedupGo_sublist : ∀ (seen : List MetaVal) (rs : List SearchResult),
    List.Sublist (dedupGo seen rs) rs := by
  intro seen rs
  induction rs generalizing seen with
  | nil => simp [dedupGo]
  | cons r rest ih =>
    by_cases h : r.name ∈ seen
    · simp only [dedupGo, if_pos h]
      exact (ih seen).cons r
    · simp only [dedupGo, if_neg h]
      exact (ih (r.name :: seen)).cons₂ r

/-- Retained results never carry an already-seen name. -/
theorem dedupGo_not_seen : ∀ (seen : List MetaVal) (rs : List SearchResult),
    ∀ y ∈ dedupGo seen rs, y.name ∉ seen := by
  intro seen rs
  induction rs generalizing seen with
  | nil => simp [dedupGo]
  | cons r rest ih =>
    by_cases h : r.name ∈ seen
    · simp only [dedupGo, if_pos h]
      exact ih seen
    · simp only [dedupGo, if_neg h]
      intro y hy
      rcases List.mem_cons.mp hy with rfl | hy'
      · exact h
      · exact fun hseen => ih (r.name :: seen) y hy' (List.mem_cons_of_mem _ hseen)

/-- The names of the retained results are pairwise distinct. -/
theorem dedupGo_names_nodup : ∀ (seen : List MetaVal) (rs : List SearchResult),
    ((dedupGo seen rs).map fun r => r.name).Nodup := by
  intro seen rs
  induction rs generalizing seen with
  | nil => simp [dedupGo]
  | cons r rest ih =>
    by_cases h : r.name ∈ seen
    · simp only [dedupGo, if_pos h]
      exact ih seen
    · simp only [dedupGo, if_neg h, List.map_cons, List.nodup_cons]
      constructor
      · intro hmem
        obtain ⟨y, hy, hyname⟩ := List.mem_map.mp hmem
        exact dedupGo_not_seen (r.name :: seen) rest y hy (hyname ▸ List.mem_cons_self _ _)
      · exact ih (r.name :: seen)

/-- Each retained result is the first input result bearing its name. -/
theorem dedupGo_find : ∀ (seen : List MetaVal) (rs : List SearchResult),
    ∀ y ∈ dedupGo seen rs, rs.find? (fun x => x.name == y.name) = some y := by
  intro seen rs
  induction rs generalizing seen with
  | nil => simp [dedupGo]
  | cons r rest ih =>
    by_cases h : r.name ∈ seen
    · simp only [dedupGo, if_pos h]
      intro y hy
      have hne : ¬ (r.name == y.name) = true := by
        simp only [beq_iff_eq]
        intro heq
        exact dedupGo_not_seen seen rest y hy (heq ▸ h)
      rw [List.find?_cons]
      simp only [hne]
      exact ih seen y hy
    · simp only [dedupGo, if_neg h]
      intro y hy
      rcases List.mem_cons.mp hy with rfl | hy'
      · rw [List.find?_cons]
        simp
      · have hne : ¬ (r.name == y.name) = true := by
          simp only [beq_iff_eq]
          intro heq
          exact dedupGo_not_seen (r.name :: seen) rest y hy' (heq ▸ List.mem_cons_self _ _)
        rw [List.find?_cons]
        simp only [hne]
        exact ih (r.name :: seen) y hy'

/-- Every input name that was not already seen survives deduplication. -/
theorem dedupGo_covers : ∀ (seen : List MetaVal) (rs : List SearchResult),
    ∀ x ∈ rs, x.name ∈ seen ∨ ∃ y ∈ dedupGo seen rs, y.name = x.name := by
  intro seen rs
  induction rs generalizing seen with
  | nil => simp
  | cons r rest ih =>
    intro x hx
    by_cases h : r.name ∈ seen
    · simp only [dedupGo, if_pos h]
      rcases List.mem_cons.mp hx with rfl | hx'
      · exact Or.inl h
      · exact ih seen x hx'
    · simp only [dedupGo, if_neg h]
      rcases List.mem_cons.mp hx with rfl | hx'
      · exact Or.inr ⟨x, List.mem_cons_self _ _, rfl⟩
      · rcases ih (r.name :: seen) x hx' with hseen | ⟨y, hy, hyname⟩
        · rcases List.mem_cons.mp hseen with heq | hseen'
          · exact Or.inr ⟨r, List.mem_cons_self _ _, heq.symm⟩
          · exact Or.inl hseen'
        · exact Or.inr ⟨y, List.mem_cons_of_mem _ hy, hyname⟩

/-! ## Helper lemmas: ranking -/

/-- Case analysis of `rank_assessments`: it returns the input unchanged
(when short enough), the truncated input (fallback), or the
model-selected, bounds-checked indices mapped over the input. -/
theorem rank_cases {α : Type} [Inhabited α] (resp : Except Unit String) (xs : List α)
    (maxRec : Nat) :
    ((rank_assessments resp xs maxRec).1 = xs ∧ xs.length ≤ maxRec ∧
      rankedIndices resp xs.length maxRec = none)
    ∨ ((rank_assessments resp xs maxRec).1 = xs.take maxRec ∧
      rankedIndices resp xs.length maxRec = none)
    ∨ (∃ l, rankedIndices resp xs.length maxRec = some l
        ∧ (rank_assessments resp xs maxRec).1 = l.map (fun i => xs.getD i.toNat default)
        ∧ l.length ≤ maxRec
        ∧ ∀ i ∈ l, 0 ≤ i ∧ i < (xs.length : Int)) := by
  by_cases hem : xs.isEmpty
  · have hx : xs = [] := List.isEmpty_iff.mp hem
    subst hx
    exact Or.inl ⟨by simp [rank_assessments], by simp, by simp [rankedIndices]⟩
  · by_cases hle : xs.length ≤ maxRec
    · exact Or.inl ⟨by simp [rank_assessments, hem, hle], hle, by simp [rankedIndices, hle]⟩
    · cases resp with
      | error e =>
        refine Or.inr (Or.inl ⟨by simp [rank_assessments, hem, hle], ?_⟩)
        simp [rankedIndices, hle]
      | ok txt =>
        cases hx : extractBracket (pyStripStr txt).data with
        | none =>
          refine Or.inr (Or.inl ⟨by simp [rank_assessments, hem, hle, hx], ?_⟩)
          simp [rankedIndices, hle, hx]
        | some arr =>
          cases hp : parseIntArray arr with
          | none =>
            refine Or.inr (Or.inl ⟨by simp [rank_assessments, hem, hle, hx, hp], ?_⟩)
            simp [rankedIndices, hle, hx, hp]
          | some indices =>
            refine Or.inr (Or.inr ⟨(indices.filter fun i =>
              decide (0 ≤ i ∧ i < (xs.length : Int))).take maxRec, ?_, ?_, ?_, ?_⟩)
            · simp [rankedIndices, hle, hx, hp]
            · simp [rank_assessments, hem, hle, hx, hp]
            · exact (List.length_take _ _).le.trans (Nat.min_le_left _ _)
            · intro i hi
              have hi' := (List.take_sublist _ _).subset hi
              have := List.mem_filter.mp hi'
              exact of_decide_eq_true this.2

/-- `rank_assessments` never returns more than `max_recommendations`
results. -/
theorem rank_length_le {α : Type} [Inhabited α] (resp : Except Unit String) (xs : List α)
    (maxRec : Nat) : (rank_assessments resp xs maxRec).1.length ≤ maxRec := by
  rcases rank_cases resp xs maxRec with ⟨heq, hle, _⟩ | ⟨heq, _⟩ | ⟨l, _, heq, hlen, _⟩
  · rw [heq]; exact hle
  · rw [heq]; exact (List.length_take _ _).le.trans (Nat.min_le_left _ _)
  · rw [heq]; simpa using hlen

/-- Mapping distinct in-bounds indices over a list with pairwise
distinct images keeps the images pairwise distinct. -/
theorem getD_map_nodup {α β : Type} [Inhabited α] (g : α → β) (xs : List α)
    (hg : (xs.map g).Nodup) :
    ∀ l : List Nat, l.Nodup → (∀ i ∈ l, i < xs.length) →
      ((l.map fun i => xs.getD i default).map g).Nodup := by
  have hinj : ∀ i j, i < xs.length → j < xs.length →
      g (xs.getD i default) = g (xs.getD j default) → i = j := by
    intro i j hi hj heq
    have hgi : (xs.map g).get ⟨i, by simpa using hi⟩ = g (xs.getD i default) := by
      rw [List.get_eq_getElem, List.getElem_map, List.getD_eq_getElem?_getD,
        List.getElem?_eq_getElem hi]
      rfl
    have hgj : (xs.map g).get ⟨j, by simpa using hj⟩ = g (xs.getD j default) := by
      rw [List.get_eq_getElem, List.getElem_map, List.getD_eq_getElem?_getD,
        List.getElem?_eq_getElem hj]
      rfl
    have := List.nodup_iff_injective_get.mp hg (hgi.trans (heq.trans hgj.symm))
    simpa using this
  intro l
  induction l with
  | nil => simp
  | cons i l ih =>
    intro hnd hbound
    rw [List.map_cons, List.map_cons, List.nodup_cons]
    obtain ⟨hni, hnl⟩ := List.nodup_cons.mp hnd
    constructor
    · intro hmem
      rw [List.map_map, List.mem_map] at hmem
      obtain ⟨j, hj, hjeq⟩ := hmem
      have : j = i := hinj j i (hbound j (List.mem_cons_of_mem _ hj))
        (hbound i (List.mem_cons_self _ _)) hjeq
      exact hni (this ▸ hj)
    · exact ih hnl fun j hj => hbound j (List.mem_cons_of_mem _ hj)

/-! ## C5 -/

/-- Counterexample for C5 as stated: when the ranking model's reply
repeats an index (`"[0, 0]"`), `get_recommendations` returns the same
assessment twice, so the final list carries duplicate names. -/
theorem get_recommendations_duplicate_names :
    (get_recommendations [docA, docB, docC] none (.ok "[0, 0]") 2).map
      (fun r => r.assessmentName) = [.str "A", .str "A"]
    ∧ ¬ ((get_recommendations [docA, docB, docC] none (.ok "[0, 0]") 2).map
      (fun r => r.assessmentName)).Nodup :=
  ⟨by decide, by decide⟩

/-- C5 (amended): the final list of `get_recommendations` has length at
most `max_results`; it contains no two entries with the same assessment
name provided the ranking reply's valid index list (when the ranked
path is taken) has no duplicate indices — in particular whenever
ranking is skipped or falls back; and deduplication before ranking
retains only the first-encountered candidate of each exact name,
preserving the input order. -/
theorem get_recommendations_spec (retrieved : List Doc) (max_duration : Option ℚ)
    (resp : Except Unit String) (max_results : Nat) (hmax : 1 ≤ max_results) :
    (get_recommendations retrieved max_duration resp max_results).length ≤ max_results
    ∧ ((∀ l, rankedIndices resp
          (dedupByName (search_assessments retrieved max_duration)).length max_results =
          some l → l.Nodup) →
        ((get_recommendations retrieved max_duration resp max_results).map
          (fun r => r.assessmentName)).Nodup)
    ∧ (∀ rs : List SearchResult,
        List.Sublist (dedupByName rs) rs
        ∧ ((dedupByName rs).map fun r => r.name).Nodup
        ∧ (∀ y ∈ dedupByName rs, rs.find? (fun x => x.name == y.name) = some y)
        ∧ ∀ x ∈ rs, ∃ y ∈ dedupByName rs, y.name = x.name) := by
  refine ⟨?_, ?_, ?_⟩
  · unfold get_recommendations
    by_cases hem : (search_assessments retrieved max_duration).isEmpty
    · simp [hem, hmax]
    · simp only [hem, if_false, Bool.false_eq_true, List.length_map]
      exact rank_length_le resp _ max_results
  · intro hnd
    unfold get_recommendations
    by_cases hem : (search_assessments retrieved max_duration).isEmpty
    · simp [hem]
    · simp only [hem, if_false, Bool.false_eq_true]
      have hnames : ((dedupByName (search_assessments retrieved max_duration)).map
          fun r => r.name).Nodup := dedupGo_names_nodup [] _
      have hcomp : ((rank_assessments resp
            (dedupByName (search_assessments retrieved max_duration)) max_results).1.map
          rowOf).map (fun r => r.assessmentName) =
          (rank_assessments resp
            (dedupByName (search_assessments retrieved max_duration)) max_results).1.map
          (fun r => r.name) := by
        rw [List.map_map]
        rfl
      rw [hcomp]
      rcases rank_cases resp (dedupByName (search_assessments retrieved max_duration))
          max_results with ⟨heq, _, _⟩ | ⟨heq, _⟩ | ⟨l, hl, heq, _, hmem⟩
      · rw [heq]; exact hnames
      · rw [heq, List.map_take]
        exact (List.take_sublist _ _).nodup hnames
      · rw [heq]
        have hlnd : l.Nodup := hnd l hl
        have hmap : (l.map fun i =>
            (dedupByName (search_assessments retrieved max_duration)).getD i.toNat default) =
            ((l.map fun i => i.toNat).map fun i =>
              (dedupByName (search_assessments retrieved max_duration)).getD i default) := by
          rw [List.map_map]
          rfl
        rw [hmap]
        apply getD_map_nodup _ _ hnames
        · refine hlnd.map_on ?_
          intro x hx y hy hxy
          have hx0 := (hmem x hx).1
          have hy0 := (hmem y hy).1
          omega
        · intro i hi
          obtain ⟨i0, hi0, rfl⟩ := List.mem_map.mp hi
          have h1 := (hmem i0 hi0).1
          have h2 := (hmem i0 hi0).2
          omega
  · intro rs
    exact ⟨dedupGo_sublist [] rs, dedupGo_names_nodup [] rs, dedupGo_find [] rs,
      fun x hx => by
        rcases dedupGo_covers [] rs x hx with hseen | hy
        · simp at hseen
        · exact hy⟩

/-- Witness for C5 (amended): three distinct candidates, a well-formed
duplicate-free ranking reply `"[1, 0]"`, `max_results = 2`. -/
theorem get_recommendations_spec_witness :
    1 ≤ 2
    ∧ (get_recommendations [docA, docB, docC] none (.ok "[1, 0]") 2).length ≤ 2
    ∧ ((get_recommendations [docA, docB, docC] none (.ok "[1, 0]") 2).map
        (fun r => r.assessmentName)).Nodup :=
  have h := get_recommendations_spec [docA, docB, docC] none (.ok "[1, 0]") 2 (by decide)
  ⟨by decide, h.1, h.2.1 (fun l hl => by
    rw [(by decide : rankedIndices (Except.ok "[1, 0]")
      (dedupByName (search_assessments [docA, docB, docC] none)).length 2 =
      some [1, 0])] at hl
    injection hl with h2
    subst h2
    decide)⟩

/-! ## Helper lemmas: splitting -/

/-- A comma split always has at least one piece. -/
theorem splitComma_ne_nil : ∀ l : List Char, splitComma l ≠ [] := by
  intro l
  induction l with
  | nil => simp [splitComma]
  | cons c cs ih =>
    by_cases h : c = ','
    · simp [splitComma, h]
    · simp only [splitComma, if_neg h]
      cases hs : splitComma cs with
      | nil => simp
      | cons t ts => simp

/-- Comma-split pieces contain no comma. -/
theorem splitComma_no_comma : ∀ l : List Char, ∀ t ∈ splitComma l, ',' ∉ t := by
  intro l
  induction l with
  | nil => simp [splitComma]
  | cons c cs ih =>
    by_cases h : c = ','
    · simp only [splitComma, if_pos h]
      intro t ht
      rcases List.mem_cons.mp ht with rfl | ht'
      · simp
      · exact ih t ht'
    · simp only [splitComma, if_neg h]
      cases hs : splitComma cs with
      | nil => exact absurd hs (splitComma_ne_nil cs)
      | cons u us =>
        intro t ht
        rcases List.mem_cons.mp ht with rfl | ht'
        · intro hc
          rcases List.mem_cons.mp hc with rfl | hc'
          · exact h rfl
          · exact ih u (hs ▸ List.mem_cons_self _ _) hc'
        · exact ih t (hs ▸ List.mem_cons_of_mem _ ht')

/-- A comma-free list splits into itself alone. -/
theorem splitComma_of_no_comma : ∀ l : List Char, ',' ∉ l → splitComma l = [l] := by
  intro l
  induction l with
  | nil => intro _; rfl
  | cons c cs ih =>
    intro h
    have hc : ¬ c = ',' := fun heq => h (heq ▸ List.mem_cons_self _ _)
    simp only [splitComma, if_neg hc]
    rw [ih fun hmem => h (List.mem_cons_of_mem _ hmem)]

/-- Splitting a string that starts with a comma-free piece followed by
a comma peels off that piece. -/
theorem splitComma_append_comma : ∀ (t l : List Char), ',' ∉ t →
    splitComma (t ++ ',' :: l) = t :: splitComma l := by
  intro t
  induction t with
  | nil => intro l _; simp [splitComma]
  | cons c cs ih =>
    intro l h
    have hc : ¬ c = ',' := fun heq => h (heq ▸ List.mem_cons_self _ _)
    simp only [List.cons_append, splitComma, if_neg hc, List.append_eq]
    rw [ih l fun hmem => h (List.mem_cons_of_mem _ hmem)]

/-- Characters of comma-split pieces come from the input. -/
theorem mem_of_mem_splitComma : ∀ l : List Char, ∀ t ∈ splitComma l, ∀ c ∈ t, c ∈ l := by
  intro l
  induction l with
  | nil => simp [splitComma]
  | cons d ds ih =>
    by_cases h : d = ','
    · simp only [splitComma, if_pos h]
      intro t ht c hc
      rcases List.mem_cons.mp ht with rfl | ht'
      · simp at hc
      · exact List.mem_cons_of_mem _ (ih t ht' c hc)
    · simp only [splitComma, if_neg h]
      cases hs : splitComma ds with
      | nil => exact absurd hs (splitComma_ne_nil ds)
      | cons u us =>
        intro t ht c hc
        rcases List.mem_cons.mp ht with rfl | ht'
        · rcases List.mem_cons.mp hc with rfl | hc'
          · exact List.mem_cons_self _ _
          · exact List.mem_cons_of_mem _ (ih u (hs ▸ List.mem_cons_self _ _) c hc')
        · exact List.mem_cons_of_mem _ (ih t (hs ▸ List.mem_cons_of_mem _ ht') c hc)

/-- A list containing a comma splits into at least two pieces. -/
theorem splitComma_length_ge_two : ∀ l : List Char, ',' ∈ l → 2 ≤ (splitComma l).length := by
  intro l
  induction l with
  | nil => simp
  | cons c cs ih =>
    intro h
    by_cases hc : c = ','
    · simp only [splitComma, if_pos hc, List.length_cons]
      have := splitComma_ne_nil cs
      have : 1 ≤ (splitComma cs).length := by
        cases hs : splitComma cs with
        | nil => exact absurd hs (splitComma_ne_nil cs)
        | cons t ts => simp
      omega
    · have hmem : ',' ∈ cs := by
        rcases List.mem_cons.mp h with heq | hmem
        · exact absurd heq.symm hc
        · exact hmem
      simp only [splitComma, if_neg hc]
      cases hs : splitComma cs with
      | nil => exact absurd hs (splitComma_ne_nil cs)
      | cons u us =>
        have := ih hmem
        rw [hs] at this
        simpa using this

/-- A whitespace split always has at least one piece. -/
theorem splitAtWs_ne_nil : ∀ l : List Char, splitAtWs l ≠ [] := by
  intro l
  induction l with
  | nil => simp [splitAtWs]
  | cons c cs ih =>
    by_cases h : isPySpace c
    · simp [splitAtWs, h]
    · simp only [splitAtWs, if_neg h]
      cases hs : splitAtWs cs with
      | nil => simp
      | cons t ts => simp

/-- Whitespace-split pieces contain no whitespace. -/
theorem splitAtWs_no_space : ∀ l : List Char, ∀ t ∈ splitAtWs l, ∀ c ∈ t, ¬ isPySpace c := by
  intro l
  induction l with
  | nil => simp [splitAtWs]
  | cons d ds ih =>
    by_cases h : isPySpace d
    · simp only [splitAtWs, if_pos h]
      intro t ht c hc
      rcases List.mem_cons.mp ht with rfl | ht'
      · simp at hc
      · exact ih t ht' c hc
    · simp only [splitAtWs, if_neg h]
      cases hs : splitAtWs ds with
      | nil => exact absurd hs (splitAtWs_ne_nil ds)
      | cons u us =>
        intro t ht c hc
        rcases List.mem_cons.mp ht with rfl | ht'
        · rcases List.mem_cons.mp hc with rfl | hc'
          · simpa using h
          · exact ih u (hs ▸ List.mem_cons_self _ _) c hc'
        · exact ih t (hs ▸ List.mem_cons_of_mem _ ht') c hc

/-- A whitespace-free list whitespace-splits into itself alone. -/
theorem splitAtWs_of_no_space : ∀ l : List Char, (∀ c ∈ l, ¬ isPySpace c) →
    splitAtWs l = [l] := by
  intro l
  induction l with
  | nil => intro _; rfl
  | cons c cs ih =>
    intro h
    have hc : ¬ isPySpace c = true := h c (List.mem_cons_self _ _)
    simp only [splitAtWs, if_neg hc]
    rw [ih fun x hx => h x (List.mem_cons_of_mem _ hx)]

/-- Characters of whitespace-split pieces come from the input. -/
theorem mem_of_mem_splitAtWs : ∀ l : List Char, ∀ t ∈ splitAtWs l, ∀ c ∈ t, c ∈ l := by
  intro l
  induction l with
  | nil => simp [splitAtWs]
  | cons d ds ih =>
    by_cases h : isPySpace d
    · simp only [splitAtWs, if_pos h]
      intro t ht c hc
      rcases List.mem_cons.mp ht with rfl | ht'
      · simp at hc
      · exact List.mem_cons_of_mem _ (ih t ht' c hc)
    · simp only [splitAtWs, if_neg h]
      cases hs : splitAtWs ds with
      | nil => exact absurd hs (splitAtWs_ne_nil ds)
      | cons u us =>
        intro t ht c hc
        rcases List.mem_cons.mp ht with rfl | ht'
        · rcases List.mem_cons.mp hc with rfl | hc'
          · exact List.mem_cons_self _ _
          · exact List.mem_cons_of_mem _ (ih u (hs ▸ List.mem_cons_self _ _) c hc')
        · exact List.mem_cons_of_mem _ (ih t (hs ▸ List.mem_cons_of_mem _ ht') c hc)

/-- Properties of Python's `str.split()` pieces: non-empty,
whitespace-free, drawn from the input. -/
theorem pySplitWs_props (l : List Char) :
    ∀ t ∈ pySplitWs l, t ≠ [] ∧ (∀ c ∈ t, ¬ isPySpace c) ∧ ∀ c ∈ t, c ∈ l := by
  intro t ht
  obtain ⟨hmem, hne⟩ := List.mem_filter.mp ht
  refine ⟨by simpa using hne, splitAtWs_no_space l t hmem, mem_of_mem_splitAtWs l t hmem⟩

/-- A non-empty whitespace-free list `split()`s into itself alone. -/
theorem pySplitWs_singleton (l : List Char) (hne : l ≠ [])
    (hws : ∀ c ∈ l, ¬ isPySpace c) : pySplitWs l = [l] := by
  unfold pySplitWs
  rw [splitAtWs_of_no_space l hws]
  simp [hne]

/-! ## Helper lemmas: stripping -/

/-- `dropWhile` is idempotent. -/
theorem dropWhile_idem (p : Char → Bool) : ∀ l : List Char,
    (l.dropWhile p).dropWhile p = l.dropWhile p := by
  intro l
  induction l with
  | nil => rfl
  | cons c cs ih =>
    by_cases h : p c
    · simp [List.dropWhile_cons, h, ih]
    · simp [List.dropWhile_cons, h]

/-- The head surviving a `dropWhile` fails the predicate. -/
theorem dropWhile_head (p : Char → Bool) : ∀ (l t : List Char) (c : Char),
    l.dropWhile p = c :: t → ¬ p c := by
  intro l
  induction l with
  | nil => intro t c h; simp at h
  | cons d ds ih =>
    intro t c h
    by_cases hd : p d
    · rw [List.dropWhile_cons, if_pos hd] at h
      exact ih t c h
    · rw [List.dropWhile_cons, if_neg hd] at h
      obtain ⟨rfl, _⟩ := List.cons.inj h
      exact hd

/-- Stripping removes a leading space. -/
theorem pyStrip_space_cons (c : Char) (l : List Char) (h : isPySpace c) :
    pyStrip (c :: l) = pyStrip l := by
  unfold pyStrip trimLeftCh
  rw [List.dropWhile_cons, if_pos h]

/-- A whitespace-free list strips to itself. -/
theorem pyStrip_of_no_space (l : List Char) (h : ∀ c ∈ l, ¬ isPySpace c) :
    pyStrip l = l := by
  have hdw : ∀ m : List Char, (∀ c ∈ m, ¬ isPySpace c) → m.dropWhile isPySpace = m := by
    intro m hm
    cases m with
    | nil => rfl
    | cons c cs => rw [List.dropWhile_cons, if_neg (hm c (List.mem_cons_self _ _))]
  unfold pyStrip trimLeftCh trimRightCh
  rw [hdw l h, hdw l.reverse fun c hc => h c (List.mem_reverse.mp hc), List.reverse_reverse]

/-- Right-trimming is idempotent. -/
theorem trimRightCh_idem (l : List Char) : trimRightCh (trimRightCh l) = trimRightCh l := by
  unfold trimRightCh
  rw [List.reverse_reverse, dropWhile_idem]

/-- The right-trim of an already left-trimmed list is still
left-trimmed. -/
theorem trimLeftCh_trimRightCh (u : List Char) (h : trimLeftCh u = u) :
    trimLeftCh (trimRightCh u) = trimRightCh u := by
  have hpre : List.IsPrefix (trimRightCh u) u := by
    unfold trimRightCh
    have h0 : List.IsPrefix ((u.reverse.dropWhile isPySpace).reverse) u.reverse.reverse :=
      List.reverse_prefix.mpr (List.dropWhile_suffix isPySpace)
    simpa using h0
  cases hr : trimRightCh u with
  | nil => rfl
  | cons c t =>
    have hdw : List.dropWhile isPySpace u = u := h
    have hhead : ∀ d rest, u = d :: rest → ¬ isPySpace d := by
      intro d rest hu
      exact dropWhile_head isPySpace u rest d (by rw [hdw, hu])
    obtain ⟨r, hru⟩ := hpre
    rw [hr] at hru
    have hc : ¬ isPySpace c := hhead c (t ++ r) (by rw [← hru, List.cons_append])
    unfold trimLeftCh
    rw [List.dropWhile_cons, if_neg hc]

/-- Python's `str.strip()` is idempotent. -/
theorem pyStrip_idem (l : List Char) : pyStrip (pyStrip l) = pyStrip l := by
  have h1 : trimLeftCh (trimLeftCh l) = trimLeftCh l := dropWhile_idem isPySpace l
  show trimRightCh (trimLeftCh (trimRightCh (trimLeftCh l))) = pyStrip l
  rw [trimLeftCh_trimRightCh (trimLeftCh l) h1, trimRightCh_idem]
  rfl

/-- Stripped characters come from the input. -/
theorem mem_pyStrip (l : List Char) (c : Char) (h : c ∈ pyStrip l) : c ∈ l := by
  unfold pyStrip trimLeftCh trimRightCh at h
  have h1 := (List.dropWhile_suffix isPySpace
    (l := (List.dropWhile isPySpace l).reverse)).subset (List.mem_reverse.mp h)
  have h2 := (List.dropWhile_suffix isPySpace (l := l)).subset (List.mem_reverse.mp h1)
  exact h2

/-! ## Helper lemmas: joining and the sort order -/

/-- Pulling a head character out of the first token of a join. -/
theorem joinCS_cons_cons (c : Char) (u : List Char) :
    ∀ ts : List (List Char), joinCS ((c :: u) :: ts) = c :: joinCS (u :: ts) := by
  intro ts
  cases ts with
  | nil => rfl
  | cons v vs => rfl

/-- Splitting the `", "`-join of comma-free tokens on commas recovers
the tokens, the later ones with the separator's space still attached. -/
theorem splitComma_joinCS : ∀ (ts : List (List Char)) (t : List Char), ',' ∉ t →
    (∀ u ∈ ts, ',' ∉ u) →
    splitComma (joinCS (t :: ts)) = t :: ts.map (fun u => ' ' :: u) := by
  intro ts
  induction ts with
  | nil =>
    intro t ht _
    exact splitComma_of_no_comma t ht
  | cons u us ih =>
    intro t ht hall
    show splitComma (t ++ ',' :: ' ' :: joinCS (u :: us)) = _
    rw [splitComma_append_comma t _ ht]
    have : (' ' :: joinCS (u :: us)) = joinCS ((' ' :: u) :: us) := by
      rw [joinCS_cons_cons]
    rw [this, ih (' ' :: u)
      (by
        intro hc
        rcases List.mem_cons.mp hc with heq | hc'
        · exact absurd heq.symm (by decide)
        · exact hall u (List.mem_cons_self _ _) hc')
      (fun v hv => hall v (List.mem_cons_of_mem _ hv))]
    rfl

/-- The join of two or more tokens contains a comma. -/
theorem comma_mem_joinCS (t u : List Char) (ts : List (List Char)) :
    ',' ∈ joinCS (t :: u :: ts) := by
  show ',' ∈ t ++ ',' :: ' ' :: joinCS (u :: ts)
  exact List.mem_append_right t (List.mem_cons_self _ _)

/-- `charsLe` is total. -/
theorem charsLe_total : ∀ a b : List Char, CharsLE a b ∨ CharsLE b a := by
  intro a
  induction a with
  | nil => intro b; exact Or.inl rfl
  | cons x xs ih =>
    intro b
    cases b with
    | nil => exact Or.inr rfl
    | cons y ys =>
      rcases lt_trichotomy x y with h | h | h
      · exact Or.inl (by simp [CharsLE, charsLe, h])
      · subst h
        rcases ih ys with h2 | h2
        · exact Or.inl (by simp [CharsLE, charsLe, lt_irrefl]; exact h2)
        · exact Or.inr (by simp [CharsLE, charsLe, lt_irrefl]; exact h2)
      · exact Or.inr (by simp [CharsLE, charsLe, h])

/-- `charsLe` is transitive. -/
theorem charsLe_trans : ∀ a b c : List Char, CharsLE a b → CharsLE b c → CharsLE a c := by
  intro a
  induction a with
  | nil => intro b c _ _; exact rfl
  | cons x xs ih =>
    intro b c hab hbc
    cases b with
    | nil => exact absurd hab (by simp [CharsLE, charsLe])
    | cons y ys =>
      cases c with
      | nil => exact absurd hbc (by simp [CharsLE, charsLe])
      | cons z zs =>
        by_cases hxy : x < y
        · by_cases hyz : y < z
          · have hxz : x < z := lt_trans hxy hyz
            simp [CharsLE, charsLe, hxz]
          · by_cases hzy : z < y
            · exact absurd hbc (by simp [CharsLE, charsLe, hyz, hzy])
            · have heq : y = z := le_antisymm (not_lt.mp hzy) (not_lt.mp hyz)
              subst heq
              simp [CharsLE, charsLe, hxy]
        · by_cases hyx : y < x
          · exact absurd hab (by simp [CharsLE, charsLe, hxy, hyx])
          · have heq : x = y := le_antisymm (not_lt.mp hyx) (not_lt.mp hxy)
            subst heq
            have hab' : charsLe xs ys = true := by
              have := hab
              simp only [CharsLE, charsLe, if_neg (lt_irrefl x)] at this
              exact this
            by_cases hxz : x < z
            · simp [CharsLE, charsLe, hxz]
            · by_cases hzx : z < x
              · exact absurd hbc (by simp [CharsLE, charsLe, hxz, hzx])
              · have heq2 : x = z := le_antisymm (not_lt.mp hzx) (not_lt.mp hxz)
                subst heq2
                have hbc' : charsLe ys zs = true := by
                  have := hbc
                  simp only [CharsLE, charsLe, if_neg (lt_irrefl x)] at this
                  exact this
                have := ih ys zs hab' hbc'
                simp only [CharsLE, charsLe, if_neg (lt_irrefl x)]
                exact this

/-- Stripping undoes the space the `", "` separator left on each later
token (tokens being already stripped). -/
theorem map_pyStrip_space : ∀ vs : List (List Char), (∀ v ∈ vs, pyStrip v = v) →
    List.map pyStrip (vs.map fun v => ' ' :: v) = vs := by
  intro vs
  induction vs with
  | nil => intro _; rfl
  | cons v vs ih =>
    intro h
    simp only [List.map_cons]
    rw [pyStrip_space_cons ' ' v (by decide), h v (List.mem_cons_self _ _),
      ih fun w hw => h w (List.mem_cons_of_mem _ hw)]

/-- A normalized output is a fixed point of normalization: the `", "`
join of sorted, stripped, comma-free tokens (whitespace-free when there
is a single one) re-normalizes to itself. -/
theorem normalize_fixed : ∀ ts : List (List Char),
    (∀ u ∈ ts, ',' ∉ u ∧ pyStrip u = u) →
    List.Sorted CharsLE ts →
    (∀ t, ts = [t] → t ≠ [] ∧ ∀ c ∈ t, ¬ isPySpace c) →
    normalize_test_type ((joinCS ts).asString) = (joinCS ts).asString := by
  intro ts hall hsorted hsing
  match ts with
  | [] => decide
  | [t] =>
    obtain ⟨htne, htws⟩ := hsing t rfl
    obtain ⟨htc, _⟩ := hall t (List.mem_cons_self _ _)
    show normalize_test_type (List.asString t) = List.asString t
    have hne : ¬ List.asString t = "" := by
      intro h
      exact htne (congrArg String.data h)
    unfold normalize_test_type
    rw [if_neg hne]
    show (joinCS (List.insertionSort CharsLE
      (List.map pyStrip (if ',' ∈ (List.asString t).data then splitComma (List.asString t).data
        else pySplitWs (List.asString t).data)))).asString = List.asString t
    rw [show (List.asString t).data = t from rfl]
    rw [if_neg htc, pySplitWs_singleton t htne htws]
    rw [List.map_cons, List.map_nil, pyStrip_of_no_space t htws]
    rfl
  | t :: u :: ts' =>
    have hcm : ',' ∈ joinCS (t :: u :: ts') := comma_mem_joinCS t u ts'
    have hne : ¬ (joinCS (t :: u :: ts')).asString = "" := by
      intro h
      have hnil : joinCS (t :: u :: ts') = [] := congrArg String.data h
      rw [hnil] at hcm
      simp at hcm
    unfold normalize_test_type
    rw [if_neg hne]
    show (joinCS (List.insertionSort CharsLE
      (List.map pyStrip (if ',' ∈ ((joinCS (t :: u :: ts')).asString).data
        then splitComma ((joinCS (t :: u :: ts')).asString).data
        else pySplitWs ((joinCS (t :: u :: ts')).asString).data)))).asString =
      (joinCS (t :: u :: ts')).asString
    rw [show ((joinCS (t :: u :: ts')).asString).data = joinCS (t :: u :: ts') from rfl]
    rw [if_pos hcm]
    rw [splitComma_joinCS (u :: ts') t (hall t (List.mem_cons_self _ _)).1
      (fun v hv => (hall v (List.mem_cons_of_mem _ hv)).1)]
    rw [List.map_cons, (hall t (List.mem_cons_self _ _)).2,
      map_pyStrip_space (u :: ts') (fun v hv => (hall v (List.mem_cons_of_mem _ hv)).2)]
    rw [List.Sorted.insertionSort_eq hsorted]

/-! ## C7 -/

/-- C7: test-type normalization is idempotent — normalizing an
already-normalized string returns it unchanged — and both `"B, A"` and
`"A B"` normalize to `"A, B"`. -/
theorem normalize_test_type_idem :
    (∀ s, normalize_test_type (normalize_test_type s) = normalize_test_type s)
    ∧ normalize_test_type "B, A" = "A, B"
    ∧ normalize_test_type "A B" = "A, B" := by
  refine ⟨?_, by decide, by decide⟩
  intro s
  by_cases hs : s = ""
  · subst hs
    rfl
  · have hrep : normalize_test_type s = (joinCS (List.insertionSort CharsLE
        ((if ',' ∈ s.data then splitComma s.data else pySplitWs s.data).map
          pyStrip))).asString := by
      unfold normalize_test_type
      rw [if_neg hs]
    rw [hrep]
    apply normalize_fixed
    · intro v hv
      have hv' : v ∈ (if ',' ∈ s.data then splitComma s.data else pySplitWs s.data).map
          pyStrip := (List.mem_insertionSort CharsLE).mp hv
      obtain ⟨piece, hpiece, rfl⟩ := List.mem_map.mp hv'
      constructor
      · intro hcm
        have hcm' : ',' ∈ piece := mem_pyStrip piece ',' hcm
        by_cases hcs : ',' ∈ s.data
        · rw [if_pos hcs] at hpiece
          exact splitComma_no_comma s.data piece hpiece hcm'
        · rw [if_neg hcs] at hpiece
          exact hcs ((pySplitWs_props s.data piece hpiece).2.2 ',' hcm')
      · exact pyStrip_idem piece
    · haveI : IsTotal (List Char) CharsLE := ⟨charsLe_total⟩
      haveI : IsTrans (List Char) CharsLE := ⟨charsLe_trans⟩
      exact List.sorted_insertionSort CharsLE _
    · intro t hts
      have hp1 : List.Perm
          ((if ',' ∈ s.data then splitComma s.data else pySplitWs s.data).map pyStrip)
          (List.insertionSort CharsLE
            ((if ',' ∈ s.data then splitComma s.data else pySplitWs s.data).map pyStrip)) :=
        (List.perm_insertionSort CharsLE _).symm
      rw [hts] at hp1
      have hmap1 := List.Perm.eq_singleton hp1
      by_cases hcs : ',' ∈ s.data
      · rw [if_pos hcs] at hmap1
        have h2 := splitComma_length_ge_two s.data hcs
        have h1 : (List.map pyStrip (splitComma s.data)).length = 1 := by
          rw [hmap1]
          rfl
        rw [List.length_map] at h1
        omega
      · rw [if_neg hcs] at hmap1
        cases hp : pySplitWs s.data with
        | nil =>
          rw [hp] at hmap1
          exact absurd hmap1 (by simp)
        | cons piece ps =>
          rw [hp] at hmap1
          simp only [List.map_cons] at hmap1
          obtain ⟨hts1, _⟩ := List.cons.inj hmap1
          obtain ⟨hpne, hpws, _⟩ := pySplitWs_props s.data piece (hp ▸ List.mem_cons_self _ _)
          have hstrip : pyStrip piece = piece := pyStrip_of_no_space piece hpws
          rw [← hts1, hstrip]
          exact ⟨hpne, hpws⟩
